import Mathlib

/-!
Verification of the workflow / process-control core of this repository.

The embedding covers, from the sources:
  * `aiida/orm/workflow.py` — the `Workflow` class: steps, calculations,
    sub-workflows, `kill`, `kill_step_calculations`, `get_step`,
    `get_steps`, and the report methods (`get_report`, `append_to_report`)
    that resolve a workflow to the root of its tree;
  * `aiida/cmdline/commands/cmd_work.py` — the `work_kill` / `work_pause` /
    `work_play` batch loops and the `get_subtree` pre-order traversal used
    by `work_report`;
  * the process-function content hash, modelled from the specification
    (its implementation is not among the provided sources; only its tests
    are, in `tests/engine/test_process_function.py`).

Python's mutable database rows become pure data; every method that mutates
a row becomes a function returning the updated value.
-/

/-- Lifecycle states of a calculation, per the specification's process
state machine (`calc_states`): CREATED, WAITING, RUNNING and the three
terminal states FINISHED, EXCEPTED, KILLED. -/
inductive CalcState where
  | CREATED
  | WAITING
  | RUNNING
  | FINISHED
  | EXCEPTED
  | KILLED
  deriving DecidableEq, Repr

/-- A calculation state is terminal iff it is FINISHED, EXCEPTED or KILLED. -/
def CalcState.is_terminal : CalcState → Bool
  | .FINISHED => true
  | .EXCEPTED => true
  | .KILLED => true
  | _ => false

/-- Workflow and step states, per `wf_states` (the workflow status subset
used by `workflow.py`: CREATED, RUNNING, FINISHED). -/
inductive WfState where
  | CREATED
  | RUNNING
  | FINISHED
  deriving DecidableEq, Repr

/-- A calculation row: primary key and its `_state` attribute, the part of
the row that `Workflow.kill_step_calculations` touches via `_set_state`. -/
structure Calculation where
  pk : Nat
  state : CalcState
  deriving DecidableEq, Repr

/- A workflow together with its step rows, and each step with its owned
calculations and sub-workflows, mirroring `DbWorkflow` / its step rows as
`workflow.py` uses them: a workflow has a `status` and a collection of
steps; a step has a `name`, a `status`, a `nextcall`, owned calculations
and owned sub-workflows. -/
mutual
inductive Workflow where
  | mk (status : WfState) (steps : List Step)
inductive Step where
  | mk (name : String) (status : WfState) (nextcall : Option String)
       (calculations : List Calculation) (sub_workflows : List Workflow)
end

def Workflow.status : Workflow → WfState
  | .mk st _ => st

def Workflow.steps : Workflow → List Step
  | .mk _ ss => ss

def Step.name : Step → String
  | .mk n _ _ _ _ => n

def Step.status : Step → WfState
  | .mk _ st _ _ _ => st

def Step.nextcall : Step → Option String
  | .mk _ _ nc _ _ => nc

def Step.get_calculations : Step → List Calculation
  | .mk _ _ _ cs _ => cs

def Step.get_sub_workflows : Step → List Workflow
  | .mk _ _ _ _ ws => ws

/-- `Workflow.get_steps(state)`: all step rows, or only those whose status
equals the given state (`steps.filter(status=state)`). -/
def Workflow.get_steps (w : Workflow) (state : Option WfState) : List Step :=
  match state with
  | none => w.steps
  | some st => w.steps.filter (fun s => s.status = st)

/-- The reserved step name (`WF_STEP_EXIT = 'exit'`). -/
def WF_STEP_EXIT : String := "exit"

/-- The exceptions `workflow.py` raises on the paths modelled here.
`InternalError` is the class raised for the reserved step name; the
specification's error taxonomy calls that case `ReservedNameError`. -/
inductive WfError where
  | InternalError (msg : String)
  deriving DecidableEq, Repr

/-- The step a freshly created row gets: new name, default status, no next
call, no calculations, no sub-workflows (`steps.get_or_create(name=...)`). -/
def new_step (name : String) : Step :=
  Step.mk name WfState.CREATED none [] []

/-- `steps.get_or_create(name=method_name)`: return the existing step row
with that name if present, otherwise append a fresh one.  Returns the step
together with the (possibly extended) workflow. -/
def get_or_create_step (w : Workflow) (name : String) : Step × Workflow :=
  match w.steps.find? (fun s => s.name = name) with
  | some s => (s, w)
  | none => (new_step name, Workflow.mk w.status (w.steps ++ [new_step name]))

/-- `Workflow.get_step(method)`: reject the reserved name `'exit'` with an
`InternalError` ("reserved string") before touching the step collection;
otherwise `get_or_create` the step.  The workflow component of the result
is the step collection after the call. -/
def get_step (w : Workflow) (method_name : String) : Except WfError Step × Workflow :=
  if method_name = WF_STEP_EXIT then
    (Except.error (WfError.InternalError
      ("Cannot query a step with name " ++ method_name ++ ", reserved string")), w)
  else
    let (s, w') := get_or_create_step w method_name
    (Except.ok s, w')

/-- The calculation-state update performed by `kill_step_calculations`:
`c._set_state(calc_states.FINISHED)` for every calculation of the step. -/
def killCalcs (cs : List Calculation) : List Calculation :=
  cs.map (fun c => { c with state := CalcState.FINISHED })

/-- `Workflow.kill_step_calculations(step)`: set every calculation owned by
the step to `calc_states.FINISHED`. -/
def kill_step_calculations (s : Step) : Step :=
  match s with
  | .mk n st nc cs ws => Step.mk n st nc (killCalcs cs) ws

/- `Workflow.kill()`: for every step currently in `wf_states.RUNNING`,
kill its calculations (set them to FINISHED) and recursively kill every
sub-workflow attached to it; steps not in RUNNING (and everything they
own) are left untouched; finally set the workflow's own status to
`wf_states.FINISHED`, unconditionally. -/
mutual
def Workflow.kill : Workflow → Workflow
  | .mk _ steps => Workflow.mk WfState.FINISHED (killSteps steps)
def killSteps : List Step → List Step
  | [] => []
  | Step.mk n st nc cs ws :: rest =>
    (if st = WfState.RUNNING then Step.mk n st nc (killCalcs cs) (killSubs ws)
     else Step.mk n st nc cs ws) :: killSteps rest
def killSubs : List Workflow → List Workflow
  | [] => []
  | w :: ws => w.kill :: killSubs ws
end

/- The statuses of all steps in the tree, in traversal order (a step's
status, then the statuses inside its sub-workflows, then its younger
siblings). -/
mutual
def wfStepStatuses : Workflow → List WfState
  | .mk _ steps => stepsStatuses steps
def stepsStatuses : List Step → List WfState
  | [] => []
  | Step.mk _ st _ _ ws :: rest => st :: (subsStatuses ws ++ stepsStatuses rest)
def subsStatuses : List Workflow → List WfState
  | [] => []
  | w :: ws => wfStepStatuses w ++ subsStatuses ws
end

/- Does every calculation owned by a RUNNING step that the `kill`
traversal reaches (a RUNNING step of the workflow itself, or, recursively,
of a sub-workflow attached to a RUNNING step) have state FINISHED? -/
mutual
def allKilledCalcsFinished : Workflow → Bool
  | .mk _ steps => stepsKilledCalcsFinished steps
def stepsKilledCalcsFinished : List Step → Bool
  | [] => true
  | Step.mk _ st _ cs ws :: rest =>
    (if st = WfState.RUNNING then
      cs.all (fun c => c.state = CalcState.FINISHED) && subsKilledCalcsFinished ws
     else true) && stepsKilledCalcsFinished rest
def subsKilledCalcsFinished : List Workflow → Bool
  | [] => true
  | w :: ws => allKilledCalcsFinished w && subsKilledCalcsFinished ws
end

/- Nesting depth of a workflow tree: 1 + the maximal depth of any
sub-workflow attached to any step. -/
mutual
def Workflow.depth : Workflow → Nat
  | .mk _ steps => stepsDepth steps + 1
def stepsDepth : List Step → Nat
  | [] => 0
  | Step.mk _ _ _ _ ws :: rest => max (subsDepth ws) (stepsDepth rest)
def subsDepth : List Workflow → Nat
  | [] => 0
  | w :: ws => max w.depth (subsDepth ws)
end

/- A fuel-bounded interpreter of the recursive `kill` traversal: one unit
of fuel is consumed per workflow-nesting level, and `none` is returned if
the fuel runs out before the traversal completes. -/
mutual
def killFuel : Nat → Workflow → Option Workflow
  | 0, _ => none
  | fuel + 1, .mk _ steps =>
    (killStepsFuel fuel steps).map (fun ss => Workflow.mk WfState.FINISHED ss)
def killStepsFuel : Nat → List Step → Option (List Step)
  | _, [] => some []
  | fuel, Step.mk n st nc cs ws :: rest =>
    match killStepsFuel fuel rest with
    | none => none
    | some tail =>
      if st = WfState.RUNNING then
        match killSubsFuel fuel ws with
        | none => none
        | some ws' => some (Step.mk n st nc (killCalcs cs) ws' :: tail)
      else
        some (Step.mk n st nc cs ws :: tail)
def killSubsFuel : Nat → List Workflow → Option (List Workflow)
  | _, [] => some []
  | fuel, w :: ws =>
    match killFuel fuel w, killSubsFuel fuel ws with
    | some w', some ws' => some (w' :: ws')
    | _, _ => none
end

/-! ### Helper lemmas about `kill` -/

theorem killCalcs_length (cs : List Calculation) : (killCalcs cs).length = cs.length := by
  simp [killCalcs]

theorem killCalcs_all_finished (cs : List Calculation) :
    (killCalcs cs).all (fun c => c.state = CalcState.FINISHED) = true := by
  simp [killCalcs, List.all_map]

mutual
theorem kill_statuses_aux (w : Workflow) : wfStepStatuses w.kill = wfStepStatuses w := by
  match w with
  | .mk st steps =>
    have ih := killSteps_statuses_aux steps
    simp [Workflow.kill, wfStepStatuses, ih]
termination_by sizeOf w
theorem killSteps_statuses_aux (ss : List Step) :
    stepsStatuses (killSteps ss) = stepsStatuses ss := by
  match ss with
  | [] => rfl
  | Step.mk n st nc cs ws :: rest =>
    have ih1 := killSubs_statuses_aux ws
    have ih2 := killSteps_statuses_aux rest
    by_cases h : st = WfState.RUNNING <;> simp [killSteps, stepsStatuses, h, ih1, ih2]
termination_by sizeOf ss
theorem killSubs_statuses_aux (ws : List Workflow) :
    subsStatuses (killSubs ws) = subsStatuses ws := by
  match ws with
  | [] => rfl
  | w :: rest =>
    have ih1 := kill_statuses_aux w
    have ih2 := killSubs_statuses_aux rest
    simp [killSubs, subsStatuses, ih1, ih2]
termination_by sizeOf ws
end

mutual
theorem kill_calcs_finished_aux (w : Workflow) : allKilledCalcsFinished w.kill = true := by
  match w with
  | .mk st steps =>
    have ih := killSteps_calcs_finished_aux steps
    simp [Workflow.kill, allKilledCalcsFinished, ih]
termination_by sizeOf w
theorem killSteps_calcs_finished_aux (ss : List Step) :
    stepsKilledCalcsFinished (killSteps ss) = true := by
  match ss with
  | [] => rfl
  | Step.mk n st nc cs ws :: rest =>
    have ih1 := killSubs_calcs_finished_aux ws
    have ih2 := killSteps_calcs_finished_aux rest
    by_cases h : st = WfState.RUNNING <;>
      simp [killSteps, stepsKilledCalcsFinished, h, ih1, ih2, killCalcs_all_finished cs]
termination_by sizeOf ss
theorem killSubs_calcs_finished_aux (ws : List Workflow) :
    subsKilledCalcsFinished (killSubs ws) = true := by
  match ws with
  | [] => rfl
  | w :: rest =>
    have ih1 := kill_calcs_finished_aux w
    have ih2 := killSubs_calcs_finished_aux rest
    simp [killSubs, subsKilledCalcsFinished, ih1, ih2]
termination_by sizeOf ws
end

mutual
theorem killFuel_eq_aux (w : Workflow) (fuel : Nat) (h : w.depth ≤ fuel) :
    killFuel fuel w = some w.kill := by
  match fuel, w with
  | 0, .mk st steps =>
    simp [Workflow.depth] at h
  | f + 1, .mk st steps =>
    have h' : stepsDepth steps ≤ f := by
      simp [Workflow.depth] at h
      omega
    have ih := killStepsFuel_eq_aux steps f h'
    simp [killFuel, Workflow.kill, ih]
termination_by sizeOf w
theorem killStepsFuel_eq_aux (ss : List Step) (fuel : Nat) (h : stepsDepth ss ≤ fuel) :
    killStepsFuel fuel ss = some (killSteps ss) := by
  match ss with
  | [] => rfl
  | Step.mk n st nc cs ws :: rest =>
    rw [stepsDepth] at h
    have hsub : subsDepth ws ≤ fuel := le_trans (Nat.le_max_left _ _) h
    have hrest : stepsDepth rest ≤ fuel := le_trans (Nat.le_max_right _ _) h
    have ih1 := killSubsFuel_eq_aux ws fuel hsub
    have ih2 := killStepsFuel_eq_aux rest fuel hrest
    by_cases hr : st = WfState.RUNNING <;> simp [killStepsFuel, killSteps, hr, ih1, ih2]
termination_by sizeOf ss
theorem killSubsFuel_eq_aux (ws : List Workflow) (fuel : Nat) (h : subsDepth ws ≤ fuel) :
    killSubsFuel fuel ws = some (killSubs ws) := by
  match ws with
  | [] => rfl
  | w :: rest =>
    rw [subsDepth] at h
    have hw : w.depth ≤ fuel := le_trans (Nat.le_max_left _ _) h
    have hrest : subsDepth rest ≤ fuel := le_trans (Nat.le_max_right _ _) h
    have ih1 := killFuel_eq_aux w fuel hw
    have ih2 := killSubsFuel_eq_aux rest fuel hrest
    simp [killSubsFuel, killSubs, ih1, ih2]
termination_by sizeOf ws
end

theorem killSteps_length (ss : List Step) : (killSteps ss).length = ss.length := by
  induction ss with
  | nil => rfl
  | cons s rest ih =>
    match s with
    | Step.mk n st nc cs ws => simp [killSteps, ih]

theorem killSteps_getD_of_not_running (ss : List Step) (i : Nat) (d : Step)
    (h : (ss.getD i d).status ≠ WfState.RUNNING) :
    (killSteps ss).getD i d = ss.getD i d := by
  induction ss generalizing i with
  | nil => rfl
  | cons s rest ih =>
    match s with
    | Step.mk n st nc cs ws =>
      match i with
      | 0 =>
        simp [Step.status] at h
        simp [killSteps, h]
      | j + 1 =>
        rw [List.getD_cons_succ] at h
        simp only [killSteps, List.getD_cons_succ]
        exact ih j h

/-! ### Concrete workflow trees used as witnesses and counterexamples -/

/- A workflow with a single RUNNING step owning a single RUNNING
calculation. -/
def wSimple : Workflow :=
  Workflow.mk WfState.RUNNING
    [Step.mk "s1" WfState.RUNNING none [⟨10, CalcState.RUNNING⟩] []]

/- The specification's example shape: a root with 3 RUNNING steps spread
across 2 nested sub-workflows. -/
def wLeafSub : Workflow :=
  Workflow.mk WfState.RUNNING
    [Step.mk "leaf" WfState.RUNNING none [⟨20, CalcState.RUNNING⟩] []]

def wMidSub : Workflow :=
  Workflow.mk WfState.RUNNING
    [Step.mk "inner" WfState.RUNNING none [] [wLeafSub]]

def wTree : Workflow :=
  Workflow.mk WfState.RUNNING
    [Step.mk "main" WfState.RUNNING none [] [wMidSub]]

/- A workflow whose first step is not RUNNING (it is CREATED) but owns a
RUNNING calculation and a sub-workflow with RUNNING content, next to a
RUNNING step. -/
def wFrame : Workflow :=
  Workflow.mk WfState.RUNNING
    [Step.mk "idle" WfState.CREATED none [⟨30, CalcState.RUNNING⟩] [wSimple],
     Step.mk "act" WfState.RUNNING none [⟨31, CalcState.RUNNING⟩] []]

/-! ### Claim C1 -/

/-- C1 (counterexample): `kill` does not put the calculation owned by the
RUNNING step of `wSimple` into the terminal state KILLED: it puts it into
the terminal state FINISHED (`kill_step_calculations` runs
`c._set_state(calc_states.FINISHED)`), and FINISHED is not KILLED. -/
theorem C1_kill_not_killed_counterexample :
    ((wSimple.kill.steps.getD 0 (new_step "")).get_calculations.getD 0
        ⟨0, CalcState.CREATED⟩).state = CalcState.FINISHED
      ∧ CalcState.FINISHED ≠ CalcState.KILLED
      ∧ (wSimple.steps.getD 0 (new_step "")).status = WfState.RUNNING := by
  refine ⟨rfl, by decide, rfl⟩

/-- C1 (amended): for every workflow, `kill` forces every calculation
owned by each RUNNING step that the depth-first traversal reaches (the
workflow's own RUNNING steps and, recursively, those of sub-workflows
attached to RUNNING steps) into the terminal state FINISHED — a terminal
state, but FINISHED rather than KILLED. -/
theorem C1_kill_forces_calcs_to_terminal_finished (w : Workflow) :
    allKilledCalcsFinished w.kill = true ∧ CalcState.FINISHED.is_terminal = true :=
  ⟨kill_calcs_finished_aux w, rfl⟩

/-! ### Claim C2 -/

/-- C2 (counterexample): on the specification's own example shape — 3
RUNNING steps across 2 nested sub-workflows (`wTree`) — `kill(root)` does
leave `root.status = FINISHED`, but all 3 steps still have status RUNNING
afterwards, because `Workflow.kill` never modifies any step's status; so
"no Step anywhere in the tree has status RUNNING" is false, and the status
became FINISHED while steps beneath are still RUNNING. -/
theorem C2_running_steps_survive_kill_counterexample :
    (wfStepStatuses wTree.kill).count WfState.RUNNING = 3
      ∧ wTree.kill.status = WfState.FINISHED := by
  refine ⟨by decide, rfl⟩

/-- C2 (amended): after `kill(root)` returns, `root.status = FINISHED`
— set unconditionally — but the statuses of the Steps of the tree are
completely unchanged (in particular every previously RUNNING Step is
still RUNNING): a workflow's status is set to FINISHED by `kill` even
though Steps beneath it remain RUNNING. -/
theorem C2_kill_sets_finished_steps_unchanged (w : Workflow) :
    w.kill.status = WfState.FINISHED ∧ wfStepStatuses w.kill = wfStepStatuses w := by
  refine ⟨?_, kill_statuses_aux w⟩
  match w with
  | .mk st steps => rfl

/-! ### Claim C9 -/

/-- C9: the recursive `kill` traversal terminates on every finite workflow
tree: the fuel-bounded interpreter `killFuel` reaches the fixed point
`Workflow.kill` (never exhausting its fuel) as soon as the fuel is at
least the nesting depth of the tree.  The inductive `Workflow` type is
exactly the class of trees built by append operations with one parent per
node, so no cycle can occur through child-ownership edges. -/
theorem C9_kill_traversal_terminates (w : Workflow) (fuel : Nat) (h : w.depth ≤ fuel) :
    killFuel fuel w = some w.kill :=
  killFuel_eq_aux w fuel h

/-- C9 (witness): on the 3-level tree `wTree`, fuel 3 suffices. -/
theorem C9_kill_traversal_terminates_witness :
    wTree.depth ≤ 3 ∧ killFuel 3 wTree = some wTree.kill :=
  ⟨by decide, C9_kill_traversal_terminates wTree 3 (by decide)⟩

/-! ### Claim C10 -/

/-- C10: `kill` only touches RUNNING steps: a step whose status is not
RUNNING is returned identically — same calculations (their states kept)
and same sub-workflows (not recursed into) — at the same position, and the
step collection keeps its length. -/
theorem C10_kill_frame_non_running_steps (w : Workflow) (i : Nat) (d : Step)
    (h : (w.steps.getD i d).status ≠ WfState.RUNNING) :
    w.kill.steps.length = w.steps.length
      ∧ w.kill.steps.getD i d = w.steps.getD i d := by
  match w with
  | .mk st steps =>
    exact ⟨killSteps_length steps, killSteps_getD_of_not_running steps i d h⟩

/-- C10 (witness): in `wFrame`, step 0 is CREATED (not RUNNING) and is
returned untouched by `kill`, including its RUNNING calculation and its
sub-workflow. -/
theorem C10_kill_frame_non_running_steps_witness :
    (wFrame.steps.getD 0 (new_step "")).status ≠ WfState.RUNNING
      ∧ wFrame.kill.steps.length = wFrame.steps.length
      ∧ wFrame.kill.steps.getD 0 (new_step "") = wFrame.steps.getD 0 (new_step "") := by
  refine ⟨by decide, ?_, ?_⟩
  · exact (C10_kill_frame_non_running_steps wFrame 0 (new_step "") (by decide)).1
  · exact (C10_kill_frame_non_running_steps wFrame 0 (new_step "") (by decide)).2

/-! ### Claim C5 -/

/-- C5: requesting the step named "exit" via `get_step` (the
`get_or_create` entry point) raises the reserved-name error — raised in the
source as `InternalError("... reserved string")`, the case the
specification's taxonomy names `ReservedNameError` — before the
`get_or_create` call, so no step is created and the workflow's step
collection is unchanged. -/
theorem C5_exit_step_rejected (w : Workflow) :
    (get_step w "exit").1 = Except.error (WfError.InternalError
        "Cannot query a step with name exit, reserved string")
      ∧ (get_step w "exit").2 = w := by
  constructor <;> rfl

/-! ### Report resolution to the root (`get_report` / `append_to_report`)

`workflow.py` stores a report only on the root of a workflow tree: each
report method first follows the `parent_workflow_step` back-reference — if
the workflow has no parent step it is the root and its own report is used,
otherwise the method recurses on the parent workflow.  Rows are looked up
by uuid.  The report store itself (`DbWorkflow.report` /
`DbWorkflow.append_to_report`) is not among the provided sources; it is
modelled from the specification as an append-only sequence of lines. -/

/-- A stored workflow row as the report methods see it: its uuid, the uuid
of the parent workflow owning the parent step (`parent_workflow_step` is
empty iff `parent = none`), and its report lines.  The report store is
modelled from the spec: an ordered sequence of free-text lines with
append. -/
structure WfRecord where
  uuid : Nat
  parent : Option Nat
  report : List String
  deriving DecidableEq, Repr

/-- The stored workflow table; `DbWorkflow.objects.get(uuid=...)` becomes
a first-match lookup. -/
def WfTable := List WfRecord

def lookupWf (tbl : WfTable) (u : Nat) : Option WfRecord :=
  tbl.find? (fun r => r.uuid = u)

/-- Replace the report of the row with the given uuid. -/
def setReport (tbl : WfTable) (u : Nat) (rep : List String) : WfTable :=
  tbl.map (fun r => if r.uuid = u then { r with report := rep } else r)

/-- `Workflow.get_report`: if the workflow has no parent step, return its
own report lines; otherwise recurse on the parent workflow.  The recursion
is fuel-bounded; `none` means the lookup failed or the fuel ran out. -/
def get_report (tbl : WfTable) : Nat → Nat → Option (List String)
  | 0, _ => none
  | fuel + 1, u =>
    match lookupWf tbl u with
    | none => none
    | some r =>
      match r.parent with
      | none => some r.report
      | some p => get_report tbl fuel p

/-- `Workflow.append_to_report(text)`: if the workflow has no parent step,
append to its own report; otherwise recurse on the parent workflow. -/
def append_to_report (tbl : WfTable) : Nat → Nat → String → Option WfTable
  | 0, _, _ => none
  | fuel + 1, u, text =>
    match lookupWf tbl u with
    | none => none
    | some r =>
      match r.parent with
      | none => some (setReport tbl u (r.report ++ [text]))
      | some p => append_to_report tbl fuel p text

/-- The uuid chain from a workflow up to (and including) the root reached
by following `parent` pointers. -/
def chain_to_root (tbl : WfTable) : Nat → Nat → Option (List Nat)
  | 0, _ => none
  | fuel + 1, u =>
    match lookupWf tbl u with
    | none => none
    | some r =>
      match r.parent with
      | none => some [u]
      | some p => (chain_to_root tbl fuel p).map (fun ch => u :: ch)

/-! ### Helper lemmas about report resolution -/

theorem lookupWf_uuid {tbl : WfTable} {u : Nat} {r : WfRecord}
    (h : lookupWf tbl u = some r) : r.uuid = u := by
  have := List.find?_some h
  simpa using this

theorem setRow_uuid (r : WfRecord) (u : Nat) (rep : List String) :
    (if r.uuid = u then { r with report := rep } else r).uuid = r.uuid := by
  by_cases hu : r.uuid = u <;> simp [hu]

theorem setRow_parent (r : WfRecord) (u : Nat) (rep : List String) :
    (if r.uuid = u then { r with report := rep } else r).parent = r.parent := by
  by_cases hu : r.uuid = u <;> simp [hu]

theorem lookupWf_setReport (tbl : WfTable) (u v : Nat) (rep : List String) :
    lookupWf (setReport tbl u rep) v =
      (lookupWf tbl v).map (fun r => if r.uuid = u then { r with report := rep } else r) := by
  induction tbl with
  | nil => rfl
  | cons r rest ih =>
    simp only [lookupWf, setReport, List.map_cons, List.find?_cons, setRow_uuid] at *
    by_cases h : r.uuid = v
    · simp [h]
    · simp [h, ih]

theorem get_report_mono {tbl : WfTable} {fuel u : Nat} {rep : List String}
    (h : get_report tbl fuel u = some rep) : get_report tbl (fuel + 1) u = some rep := by
  induction fuel generalizing u with
  | zero => simp [get_report] at h
  | succ f ih =>
    rw [get_report] at h
    rw [get_report]
    match hl : lookupWf tbl u with
    | none => simp [hl] at h
    | some r =>
      simp only [hl] at h ⊢
      match hp : r.parent with
      | none => simpa [hp] using h
      | some p =>
        simp only [hp] at h ⊢
        exact ih h

theorem chain_to_root_head {tbl : WfTable} {fuel u : Nat} {ch : List Nat}
    (h : chain_to_root tbl fuel u = some ch) : ∃ t, ch = u :: t := by
  match fuel with
  | 0 => simp [chain_to_root] at h
  | f + 1 =>
    rw [chain_to_root] at h
    match hl : lookupWf tbl u with
    | none => simp [hl] at h
    | some r =>
      simp only [hl] at h
      match hp : r.parent with
      | none =>
        simp only [hp, Option.some_inj] at h
        exact ⟨[], h.symm⟩
      | some p =>
        simp only [hp, Option.map_eq_some'] at h
        obtain ⟨ch', _, rfl⟩ := h
        exact ⟨ch', rfl⟩

theorem append_to_report_shape {tbl : WfTable} {fuel u : Nat} {text : String} {tbl' : WfTable}
    (h : append_to_report tbl fuel u text = some tbl') :
    ∃ v r, lookupWf tbl v = some r ∧ r.parent = none
      ∧ tbl' = setReport tbl v (r.report ++ [text]) := by
  induction fuel generalizing u with
  | zero => simp [append_to_report] at h
  | succ f ih =>
    rw [append_to_report] at h
    match hl : lookupWf tbl u with
    | none => simp [hl] at h
    | some r =>
      simp only [hl] at h
      match hp : r.parent with
      | none =>
        simp only [hp, Option.some_inj] at h
        exact ⟨u, r, hl, hp, h.symm⟩
      | some p =>
        simp only [hp] at h
        exact ih h

theorem report_append_aux (fuel : Nat) (tbl : WfTable) (w : Nat) (text : String)
    (ch : List Nat) (rep₀ : List String) (tbl' : WfTable)
    (hch : chain_to_root tbl fuel w = some ch)
    (hrep : get_report tbl fuel w = some rep₀)
    (happ : append_to_report tbl fuel w text = some tbl') :
    ∀ a ∈ ch, get_report tbl' fuel a = some (rep₀ ++ [text]) := by
  induction fuel generalizing w ch with
  | zero => simp [chain_to_root] at hch
  | succ f ih =>
    rw [chain_to_root] at hch
    rw [get_report] at hrep
    rw [append_to_report] at happ
    match hl : lookupWf tbl w with
    | none => simp [hl] at hch
    | some r =>
      simp only [hl] at hch hrep happ
      match hp : r.parent with
      | none =>
        simp only [hp, Option.some_inj] at hch hrep happ
        subst hch
        subst hrep
        subst happ
        intro a ha
        simp only [List.mem_singleton] at ha
        subst ha
        have hu := lookupWf_uuid hl
        rw [get_report, lookupWf_setReport, hl]
        simp [hu, hp]
      | some p =>
        simp only [hp, Option.map_eq_some'] at hch hrep happ
        obtain ⟨ch', hch', rfl⟩ := hch
        have ihp := ih p ch' hch' hrep happ
        intro a ha
        rcases List.mem_cons.mp ha with rfl | hmem
        · -- a is the workflow itself: one resolution hop to the parent
          obtain ⟨t, rfl⟩ := chain_to_root_head hch'
          have hpmem : p ∈ p :: t := List.mem_cons_self p t
          obtain ⟨v, rr, hlv, hpar, rfl⟩ := append_to_report_shape happ
          rw [get_report, lookupWf_setReport, hl]
          have hpar2 : (if r.uuid = v then { r with report := rr.report ++ [text] } else r).parent
              = some p := by
            rw [setRow_parent]
            exact hp
          simp only [Option.map_some', hpar2]
          exact ihp p hpmem
        · exact get_report_mono (ihp a hmem)

/-! ### Claim C6 -/

/-- C6: for a workflow `w` at any depth whose parent chain `ch` resolves
(within the given fuel) to a root, `append_to_report` writes into the
root's report store and afterwards `get_report` on `w`, on every
intermediate ancestor and on the root (every uuid on the chain) returns
one identical sequence: the previous sequence with `text` appended, which
contains `text`. -/
theorem C6_report_append_resolves_to_root (tbl : WfTable) (fuel w : Nat) (text : String)
    (ch : List Nat) (rep₀ : List String) (tbl' : WfTable)
    (hch : chain_to_root tbl fuel w = some ch)
    (hrep : get_report tbl fuel w = some rep₀)
    (happ : append_to_report tbl fuel w text = some tbl') :
    (∀ a ∈ ch, get_report tbl' fuel a = some (rep₀ ++ [text]))
      ∧ text ∈ rep₀ ++ [text] :=
  ⟨report_append_aux fuel tbl w text ch rep₀ tbl' hch hrep happ, by simp⟩

/- A chain of workflows 3 levels deep: 3 → 2 → 1 → 0 (the root, which
already holds one report line). -/
def tblW : WfTable :=
  [⟨0, none, ["r0"]⟩, ⟨1, some 0, []⟩, ⟨2, some 1, []⟩, ⟨3, some 2, []⟩]

def tblW' : WfTable :=
  [⟨0, none, ["r0", "hello"]⟩, ⟨1, some 0, []⟩, ⟨2, some 1, []⟩, ⟨3, some 2, []⟩]

/-- C6 (witness): appending "hello" on the workflow 3 levels deep writes
into the root's store, and reading on the workflow itself, both
intermediate ancestors and the root returns the identical sequence
`["r0", "hello"]`, which contains "hello". -/
theorem C6_report_append_resolves_to_root_witness :
    chain_to_root tblW 10 3 = some [3, 2, 1, 0]
      ∧ get_report tblW 10 3 = some ["r0"]
      ∧ append_to_report tblW 10 3 "hello" = some tblW'
      ∧ (∀ a ∈ [3, 2, 1, 0], get_report tblW' 10 a = some (["r0"] ++ ["hello"]))
      ∧ "hello" ∈ ["r0"] ++ ["hello"] := by
  have h := C6_report_append_resolves_to_root tblW 10 3 "hello" [3, 2, 1, 0] ["r0"] tblW'
    rfl rfl rfl
  exact ⟨rfl, rfl, rfl, h.1, h.2⟩

/-! ### `verdi work kill` / `verdi work pause` / `verdi work play`

Each command iterates over the requested calculations inside one
`new_blocking_control_panel()` scope.  Per target: if the calculation
`is_terminated`, an "already terminated" line is echoed and the loop
continues with the next target — the control panel is never invoked, so
(per the specification's control flow) no command is published.
Otherwise `kill_process` / `pause_process` / `play_process` is called;
its `bool` result selects a success or a problem line, and a
`RemoteException` or `DeliveryFailed` raised by it is caught in the loop
body and reported for that target.

The control panel itself lives in `aiida.work`, outside the provided
sources; it is modelled as a function from the target pk to the outcome
of the remote command: `Except.ok b` for a reply, `Except.error` for one
of the two recoverable exceptions.  The echo utility also lives outside
the provided sources: `echo_error` prints and returns, while
`echo_critical` prints and exits the process — so a loop body that calls
`echo_critical` terminates the whole batch.  `work_kill` and `work_pause`
report per-target failures with `echo_error`; `work_play` reports both
the `False`-reply case and the caught exceptions with `echo_critical`. -/

/- A calculation as the batch loops see it: its pk and its
`is_terminated` flag. -/
structure CalcRef where
  pk : Nat
  is_terminated : Bool
  deriving DecidableEq, Repr

/-- The two recoverable control-panel failures. -/
inductive CtrlError where
  | RemoteException (message : String)
  | DeliveryFailed (message : String)
  deriving DecidableEq, Repr

def CtrlError.message : CtrlError → String
  | .RemoteException m => m
  | .DeliveryFailed m => m

inductive EchoKind where
  | success
  | error
  | critical
  deriving DecidableEq, Repr

structure EchoLine where
  kind : EchoKind
  msg : String
  deriving DecidableEq, Repr

/-- Outcome of a batch: the echoed lines in order, and the pks for which a
command was actually published (the control panel was invoked). -/
structure BatchResult where
  echoes : List EchoLine
  published : List Nat
  deriving DecidableEq, Repr

/-- The per-target "already terminated" line (echoed via `echo_error`). -/
def already_terminated_line (pk : Nat) : EchoLine :=
  ⟨EchoKind.error, "Calculation<" ++ toString pk ++ "> is already terminated"⟩

/-- `work_kill`: terminated targets are skipped with an error line; a
`False` reply and a caught exception are reported with `echo_error` and
the loop continues. -/
def work_kill (cp : Nat → Except CtrlError Bool) : List CalcRef → BatchResult
  | [] => ⟨[], []⟩
  | c :: rest =>
    if c.is_terminated then
      let r := work_kill cp rest
      ⟨already_terminated_line c.pk :: r.echoes, r.published⟩
    else
      match cp c.pk with
      | .ok true =>
        let r := work_kill cp rest
        ⟨⟨EchoKind.success, "killed Calculation<" ++ toString c.pk ++ ">"⟩ :: r.echoes,
          c.pk :: r.published⟩
      | .ok false =>
        let r := work_kill cp rest
        ⟨⟨EchoKind.error, "problem killing Calculation<" ++ toString c.pk ++ ">"⟩ :: r.echoes,
          c.pk :: r.published⟩
      | .error e =>
        let r := work_kill cp rest
        ⟨⟨EchoKind.error,
            "failed to kill Calculation<" ++ toString c.pk ++ ">: " ++ e.message⟩ :: r.echoes,
          c.pk :: r.published⟩

/-- `work_pause`: same loop shape as `work_kill`. -/
def work_pause (cp : Nat → Except CtrlError Bool) : List CalcRef → BatchResult
  | [] => ⟨[], []⟩
  | c :: rest =>
    if c.is_terminated then
      let r := work_pause cp rest
      ⟨already_terminated_line c.pk :: r.echoes, r.published⟩
    else
      match cp c.pk with
      | .ok true =>
        let r := work_pause cp rest
        ⟨⟨EchoKind.success, "paused Calculation<" ++ toString c.pk ++ ">"⟩ :: r.echoes,
          c.pk :: r.published⟩
      | .ok false =>
        let r := work_pause cp rest
        ⟨⟨EchoKind.error, "problem pausing Calculation<" ++ toString c.pk ++ ">"⟩ :: r.echoes,
          c.pk :: r.published⟩
      | .error e =>
        let r := work_pause cp rest
        ⟨⟨EchoKind.error,
            "failed to pause Calculation<" ++ toString c.pk ++ ">: " ++ e.message⟩ :: r.echoes,
          c.pk :: r.published⟩

/-- `work_play`: terminated targets are skipped with an error line as in
the other two commands, but the `False`-reply case and the caught
exceptions call `echo_critical`, which exits the process — aborting the
remaining targets of the batch. -/
def work_play (cp : Nat → Except CtrlError Bool) : List CalcRef → BatchResult
  | [] => ⟨[], []⟩
  | c :: rest =>
    if c.is_terminated then
      let r := work_play cp rest
      ⟨already_terminated_line c.pk :: r.echoes, r.published⟩
    else
      match cp c.pk with
      | .ok true =>
        let r := work_play cp rest
        ⟨⟨EchoKind.success, "played Calculation<" ++ toString c.pk ++ ">"⟩ :: r.echoes,
          c.pk :: r.published⟩
      | .ok false =>
        ⟨[⟨EchoKind.critical, "problem playing Calculation<" ++ toString c.pk ++ ">"⟩],
          [c.pk]⟩
      | .error e =>
        ⟨[⟨EchoKind.critical,
            "failed to play Calculation<" ++ toString c.pk ++ ">: " ++ e.message⟩],
          [c.pk]⟩

/-! ### Claims C3 and C4 -/

theorem work_kill_processes_all (cp : Nat → Except CtrlError Bool) (cs : List CalcRef) :
    (work_kill cp cs).echoes.length = cs.length := by
  induction cs with
  | nil => rfl
  | cons c rest ih =>
    rw [work_kill]
    by_cases ht : c.is_terminated <;> simp only [ht, if_true, if_false, Bool.false_eq_true]
    · simpa using ih
    · match cp c.pk with
      | .ok true => simpa using ih
      | .ok false => simpa using ih
      | .error e => simpa using ih

theorem work_pause_processes_all (cp : Nat → Except CtrlError Bool) (cs : List CalcRef) :
    (work_pause cp cs).echoes.length = cs.length := by
  induction cs with
  | nil => rfl
  | cons c rest ih =>
    rw [work_pause]
    by_cases ht : c.is_terminated <;> simp only [ht, if_true, if_false, Bool.false_eq_true]
    · simpa using ih
    · match cp c.pk with
      | .ok true => simpa using ih
      | .ok false => simpa using ih
      | .error e => simpa using ih

/- The failing batch for `work_play`: target 1 is alive but its command
raises `DeliveryFailed "no subscriber"`; target 2 is alive and would
acknowledge. -/
def cpC3 : Nat → Except CtrlError Bool := fun pk =>
  if pk = 1 then Except.error (CtrlError.DeliveryFailed "no subscriber") else Except.ok true

def csC3 : List CalcRef := [⟨1, false⟩, ⟨2, false⟩]

/-- C3: `work_kill` and `work_pause` do contain a per-target
`RemoteException`/`DeliveryFailed` — every target of the batch yields its
own line no matter what the control panel returns or raises — but
`work_play` does not: on the batch `[1, 2]` where playing 1 raises
`DeliveryFailed`, the caught exception is reported through
`echo_critical`, which exits the process, so target 2 is never attempted
(one echoed line, only pk 1 ever published), while `work_kill` on the
same batch processes both targets. -/
theorem C3_exception_aborts_play_but_not_kill_pause :
    (∀ cp cs, (work_kill cp cs).echoes.length = cs.length)
      ∧ (∀ cp cs, (work_pause cp cs).echoes.length = cs.length)
      ∧ (work_play cpC3 csC3).echoes
          = [⟨EchoKind.critical, "failed to play Calculation<1>: no subscriber"⟩]
      ∧ (work_play cpC3 csC3).published = [1]
      ∧ (work_kill cpC3 csC3).echoes.length = 2
      ∧ (work_kill cpC3 csC3).published = [1, 2] := by
  refine ⟨work_kill_processes_all, work_pause_processes_all, ?_, ?_, ?_, ?_⟩ <;> rfl

/-- C4: for a terminated calculation, each of the three batch loops skips
the control panel entirely — nothing is published for it (`published` is
exactly that of the remaining targets) — echoes the local
"already terminated" line for that pk, and goes on with the rest of the
batch unchanged (so the skip is not treated as a batch-aborting
failure). -/
theorem C4_terminated_target_is_local_noop (cp : Nat → Except CtrlError Bool)
    (c : CalcRef) (cs : List CalcRef) (h : c.is_terminated = true) :
    work_kill cp (c :: cs)
        = ⟨already_terminated_line c.pk :: (work_kill cp cs).echoes,
            (work_kill cp cs).published⟩
      ∧ work_pause cp (c :: cs)
          = ⟨already_terminated_line c.pk :: (work_pause cp cs).echoes,
              (work_pause cp cs).published⟩
      ∧ work_play cp (c :: cs)
          = ⟨already_terminated_line c.pk :: (work_play cp cs).echoes,
              (work_play cp cs).published⟩ := by
  refine ⟨?_, ?_, ?_⟩
  · rw [work_kill, h]
    simp
  · rw [work_pause, h]
    simp
  · rw [work_play, h]
    simp

/-- C4 (witness): a terminated calculation (pk 5) followed by a live one
(pk 6): all three loops echo "already terminated" for 5, publish nothing
for it, and continue with 6. -/
theorem C4_terminated_target_is_local_noop_witness :
    (⟨5, true⟩ : CalcRef).is_terminated = true
      ∧ work_kill cpC3 (⟨5, true⟩ :: [⟨6, false⟩])
          = ⟨already_terminated_line 5 :: (work_kill cpC3 [⟨6, false⟩]).echoes,
              (work_kill cpC3 [⟨6, false⟩]).published⟩
      ∧ work_play cpC3 (⟨5, true⟩ :: [⟨6, false⟩])
          = ⟨already_terminated_line 5 :: (work_play cpC3 [⟨6, false⟩]).echoes,
              (work_play cpC3 [⟨6, false⟩]).published⟩ := by
  have h := C4_terminated_target_is_local_noop cpC3 ⟨5, true⟩ [⟨6, false⟩] rfl
  exact ⟨rfl, h.1, h.2.2⟩

/-! ### `get_subtree` (`verdi work report`)

The call graph of work calculations: a node (its pk) and the child
workchains reached by forward CALL links, in query order. -/

inductive CallTree where
  | node (pk : Nat) (children : List CallTree)

def CallTree.pk : CallTree → Nat
  | .node p _ => p

def CallTree.children : CallTree → List CallTree
  | .node _ cs => cs

/- `get_subtree(pk, level=0)`: `[(pk, level)]` followed by the chained
subtree listings of each child at `level + 1`. -/
mutual
def get_subtree : CallTree → Nat → List (Nat × Nat)
  | .node pk children, level => (pk, level) :: subtreesChain children (level + 1)
def subtreesChain : List CallTree → Nat → List (Nat × Nat)
  | [], _ => []
  | c :: cs, level => get_subtree c level ++ subtreesChain cs level
end

mutual
def CallTree.size : CallTree → Nat
  | .node _ children => treeListSize children + 1
def treeListSize : List CallTree → Nat
  | [] => 0
  | c :: cs => c.size + treeListSize cs
end

def worklistSize : List (CallTree × Nat) → Nat
  | [] => 0
  | (t, _) :: rest => t.size + worklistSize rest

theorem worklistSize_append (a b : List (CallTree × Nat)) :
    worklistSize (a ++ b) = worklistSize a + worklistSize b := by
  induction a with
  | nil => simp [worklistSize]
  | cons p rest ih =>
    match p with
    | (t, d) =>
      simp [worklistSize, ih]
      omega

theorem worklistSize_map (cs : List CallTree) (d : Nat) :
    worklistSize (cs.map (fun c => (c, d))) = treeListSize cs := by
  induction cs with
  | nil => rfl
  | cons c rest ih => simp [worklistSize, treeListSize, ih]

/-- The specification's pre-order listing, as an explicitly iterative
worklist traversal: pop a node, emit `(pk, depth)`, push its children at
`depth + 1` in front of the remaining work. -/
def preorder_worklist : List (CallTree × Nat) → List (Nat × Nat)
  | [] => []
  | (.node pk children, d) :: rest =>
    (pk, d) :: preorder_worklist (children.map (fun c => (c, d + 1)) ++ rest)
termination_by l => worklistSize l
decreasing_by
  simp [worklistSize, worklistSize_append, worklistSize_map, CallTree.size]

theorem subtreesChain_flatten (cs : List CallTree) (level : Nat) :
    subtreesChain cs level = (cs.map (fun c => get_subtree c level)).flatten := by
  induction cs with
  | nil => rfl
  | cons c rest ih => simp [subtreesChain, ih]

theorem preorder_worklist_flatten (l : List (CallTree × Nat)) :
    preorder_worklist l = (l.map (fun p => get_subtree p.1 p.2)).flatten := by
  match l with
  | [] => simp [preorder_worklist]
  | (.node pk children, d) :: rest =>
    have ih := preorder_worklist_flatten (children.map (fun c => (c, d + 1)) ++ rest)
    have step : preorder_worklist ((CallTree.node pk children, d) :: rest)
        = (pk, d) :: preorder_worklist (children.map (fun c => (c, d + 1)) ++ rest) := by
      simp [preorder_worklist]
    rw [step, ih]
    simp [get_subtree, subtreesChain_flatten, List.map_map, Function.comp_def]
termination_by worklistSize l
decreasing_by
  simp [worklistSize, worklistSize_append, worklistSize_map, CallTree.size]

/- The chain A (pk 100) called B (pk 200) called C (pk 300). -/
def chainABC : CallTree := .node 100 [.node 200 [.node 300 []]]

/-! ### Claim C7 -/

/-- C7: `get_subtree` is the pre-order (pk, depth) listing: it starts at
`(pk, 0)`, it coincides with the iterative worklist pre-order traversal in
which each child is visited at its parent's depth plus one, and on the
chain A called B called C it yields `[(A,0), (B,1), (C,2)]`. -/
theorem C7_get_subtree_preorder :
    (∀ t : CallTree, get_subtree t 0 = preorder_worklist [(t, 0)])
      ∧ (∀ t : CallTree, (get_subtree t 0).head? = some (t.pk, 0))
      ∧ get_subtree chainABC 0 = [(100, 0), (200, 1), (300, 2)] := by
  refine ⟨?_, ?_, rfl⟩
  · intro t
    rw [preorder_worklist_flatten]
    simp
  · intro t
    match t with
    | .node pk children => rfl

/-! ### Process-function content hash (Claim C8)

Modelled from the spec: the implementation of the content hash
(`get_hash` used by `test_hashes` / `test_hashes_different`) is not among
the provided sources, only its tests are, so `compute_hash` is modelled
from the specification: inputs are normalized before hashing — named
arguments are order-independent (treated as a mapping and canonicalized
by sorting on the argument name), positional arguments are
order-dependent, nested containers are hashed structurally — and the
function identity (fully-qualified name plus a content/version marker)
is part of the hashed content.  The digest itself is idealized as the
canonical content (the specification's "with overwhelming probability"
collision freedom becomes exact injectivity). -/

/-- Modelled from the spec: a normalized input value — integers, strings,
order-dependent sequences (positional arguments) and string-keyed
mappings (named arguments). -/
inductive HVal where
  | int (n : Int)
  | str (s : String)
  | list (xs : List HVal)
  | dict (kvs : List (String × HVal))

/-- Key-wise comparison of named-argument entries. -/
def keyLE (a b : String × HVal) : Prop := a.1 ≤ b.1

instance : DecidableRel keyLE := fun a b => inferInstanceAs (Decidable (a.1 ≤ b.1))

instance : IsTotal (String × HVal) keyLE := ⟨fun a b => le_total a.1 b.1⟩

instance : IsTrans (String × HVal) keyLE := ⟨fun _ _ _ => le_trans⟩

/-- Canonical order for a named-argument mapping: sort entries by key. -/
def sortByKey (kvs : List (String × HVal)) : List (String × HVal) :=
  List.insertionSort keyLE kvs

/- Modelled from the spec: structural normalization — recurse into
containers, sorting every mapping by key; sequences keep their order. -/
mutual
def normVal : HVal → HVal
  | .int n => .int n
  | .str s => .str s
  | .list xs => .list (normList xs)
  | .dict kvs => .dict (sortByKey (normKVs kvs))
def normList : List HVal → List HVal
  | [] => []
  | x :: xs => normVal x :: normList xs
def normKVs : List (String × HVal) → List (String × HVal)
  | [] => []
  | (k, v) :: kvs => (k, normVal v) :: normKVs kvs
end

/-- Modelled from the spec: the function identity entering the hash — the
fully-qualified name and a content/version marker. -/
structure FuncIdentity where
  qualified_name : String
  version : String
  deriving DecidableEq, Repr

/-- Modelled from the spec: `compute_hash(function_identity, inputs)` for
named arguments — the digest of the function identity together with the
normalized input mapping, idealized as the canonical content itself. -/
def compute_hash (f : FuncIdentity) (kwargs : List (String × HVal)) : FuncIdentity × HVal :=
  (f, normVal (HVal.dict kwargs))

/-- First-match lookup of a named argument. -/
def lookupVal (k : String) : List (String × HVal) → Option HVal
  | [] => none
  | (k', v) :: rest => if k' = k then some v else lookupVal k rest

/-! ### Helper lemmas for the content hash -/

theorem sorted_nodup_keys_perm_eq :
    ∀ {l₁ l₂ : List (String × HVal)}, l₁.Perm l₂ →
      l₁.Sorted keyLE → l₂.Sorted keyLE → (l₁.map Prod.fst).Nodup → l₁ = l₂ := by
  intro l₁
  induction l₁ with
  | nil =>
    intro l₂ hp _ _ _
    exact hp.nil_eq
  | cons a t₁ ih =>
    intro l₂ hp hs₁ hs₂ hnd
    match l₂ with
    | [] => exact absurd hp.symm.nil_eq (by simp)
    | b :: t₂ =>
      have ha₂ : a ∈ b :: t₂ := hp.mem_iff.mp (List.mem_cons_self a t₁)
      have hb₁ : b ∈ a :: t₁ := hp.symm.mem_iff.mp (List.mem_cons_self b t₂)
      have hab : a = b := by
        rcases List.mem_cons.mp hb₁ with h | hbt
        · exact h.symm
        · rcases List.mem_cons.mp ha₂ with h | hat
          · exact h
          · have h1 : keyLE a b := (List.sorted_cons.mp hs₁).1 b hbt
            have h2 : keyLE b a := (List.sorted_cons.mp hs₂).1 a hat
            have hk : a.1 = b.1 := le_antisymm h1 h2
            exfalso
            have hmem : a.1 ∈ t₁.map Prod.fst := by
              rw [hk]
              exact List.mem_map_of_mem Prod.fst hbt
            have hnd' : a.1 ∉ t₁.map Prod.fst ∧ (t₁.map Prod.fst).Nodup := by
              rw [List.map_cons, List.nodup_cons] at hnd
              exact hnd
            exact hnd'.1 hmem
      subst hab
      have ht : t₁.Perm t₂ := hp.cons_inv
      have hnd' : a.1 ∉ t₁.map Prod.fst ∧ (t₁.map Prod.fst).Nodup := by
        rw [List.map_cons, List.nodup_cons] at hnd
        exact hnd
      rw [ih ht (List.sorted_cons.mp hs₁).2 (List.sorted_cons.mp hs₂).2 hnd'.2]

theorem mem_of_lookupVal_eq_some {k : String} {v : HVal} :
    ∀ {l : List (String × HVal)}, lookupVal k l = some v → (k, v) ∈ l := by
  intro l
  induction l with
  | nil => intro h; simp [lookupVal] at h
  | cons p rest ih =>
    match p with
    | (k', v') =>
      intro h
      rw [lookupVal] at h
      by_cases hk : k' = k
      · simp only [hk, if_true] at h
        subst hk
        simp only [Option.some_inj] at h
        subst h
        exact List.mem_cons_self _ _
      · simp only [hk, if_false] at h
        exact List.mem_cons_of_mem _ (ih h)

theorem lookupVal_eq_some_of_mem {k : String} {v : HVal} :
    ∀ {l : List (String × HVal)}, (l.map Prod.fst).Nodup → (k, v) ∈ l →
      lookupVal k l = some v := by
  intro l
  induction l with
  | nil => intro _ h; simp at h
  | cons p rest ih =>
    match p with
    | (k', v') =>
      intro hnd hm
      have hnd' : k' ∉ rest.map Prod.fst ∧ (rest.map Prod.fst).Nodup := by
        rw [List.map_cons, List.nodup_cons] at hnd
        exact hnd
      rcases List.mem_cons.mp hm with h | h
      · obtain ⟨h1, h2⟩ := Prod.mk.injEq .. ▸ h.symm
        rw [lookupVal]
        simp [h1.symm, h2]
      · have hk : k' ≠ k := by
          intro hkk
          subst hkk
          exact hnd'.1 (List.mem_map_of_mem Prod.fst h)
        rw [lookupVal]
        simp only [hk, if_false]
        exact ih hnd'.2 h

theorem lookupVal_eq_none_iff {k : String} :
    ∀ {l : List (String × HVal)}, lookupVal k l = none ↔ k ∉ l.map Prod.fst := by
  intro l
  induction l with
  | nil => simp [lookupVal]
  | cons p rest ih =>
    match p with
    | (k', v') =>
      rw [lookupVal]
      by_cases hk : k' = k
      · simp [hk]
      · rw [if_neg hk, ih, List.map_cons]
        simp [List.mem_cons, Ne.symm hk]

theorem lookupVal_perm {l₁ l₂ : List (String × HVal)} (hp : l₁.Perm l₂)
    (hnd : (l₁.map Prod.fst).Nodup) (k : String) : lookupVal k l₁ = lookupVal k l₂ := by
  have hnd₂ : (l₂.map Prod.fst).Nodup := ((hp.map Prod.fst).nodup_iff).mp hnd
  match hl : lookupVal k l₁ with
  | some v =>
    have hm : (k, v) ∈ l₂ := hp.mem_iff.mp (mem_of_lookupVal_eq_some hl)
    exact (lookupVal_eq_some_of_mem hnd₂ hm).symm
  | none =>
    have hk : k ∉ l₂.map Prod.fst := by
      have := lookupVal_eq_none_iff.mp hl
      intro hmem
      exact this (((hp.map Prod.fst).mem_iff).mpr hmem)
    exact (lookupVal_eq_none_iff.mpr hk).symm

theorem normKVs_eq_map (l : List (String × HVal)) :
    normKVs l = l.map (fun p => (p.1, normVal p.2)) := by
  induction l with
  | nil => rfl
  | cons p rest ih =>
    match p with
    | (k, v) => simp [normKVs, ih]

theorem normKVs_keys (l : List (String × HVal)) :
    (normKVs l).map Prod.fst = l.map Prod.fst := by
  rw [normKVs_eq_map, List.map_map]
  rfl

theorem lookupVal_normKVs (k : String) (l : List (String × HVal)) :
    lookupVal k (normKVs l) = (lookupVal k l).map normVal := by
  induction l with
  | nil => rfl
  | cons p rest ih =>
    match p with
    | (k', v) =>
      rw [normKVs, lookupVal, lookupVal]
      by_cases hk : k' = k
      · simp [hk]
      · simp [hk, ih]

theorem sortByKey_perm (l : List (String × HVal)) : (sortByKey l).Perm l :=
  List.perm_insertionSort keyLE l

theorem sortByKey_sorted (l : List (String × HVal)) : (sortByKey l).Sorted keyLE :=
  List.sorted_insertionSort keyLE l

theorem compute_hash_perm_invariant (f : FuncIdentity) (l₁ l₂ : List (String × HVal))
    (hp : l₁.Perm l₂) (hnd : (l₁.map Prod.fst).Nodup) :
    compute_hash f l₁ = compute_hash f l₂ := by
  have hm : (normKVs l₁).Perm (normKVs l₂) := by
    rw [normKVs_eq_map, normKVs_eq_map]
    exact hp.map _
  have hnd₁ : ((normKVs l₁).map Prod.fst).Nodup := by
    rw [normKVs_keys]
    exact hnd
  have hchain : (sortByKey (normKVs l₁)).Perm (sortByKey (normKVs l₂)) :=
    ((sortByKey_perm (normKVs l₁)).trans hm).trans (sortByKey_perm (normKVs l₂)).symm
  have hnds : ((sortByKey (normKVs l₁)).map Prod.fst).Nodup :=
    (((sortByKey_perm (normKVs l₁)).map Prod.fst).nodup_iff).mpr hnd₁
  have hsorteq : sortByKey (normKVs l₁) = sortByKey (normKVs l₂) :=
    sorted_nodup_keys_perm_eq hchain (sortByKey_sorted _) (sortByKey_sorted _) hnds
  simp [compute_hash, normVal, hsorteq]

theorem compute_hash_injective (f₁ f₂ : FuncIdentity) (l₁ l₂ : List (String × HVal))
    (hnd₁ : (l₁.map Prod.fst).Nodup) (hnd₂ : (l₂.map Prod.fst).Nodup)
    (he : compute_hash f₁ l₁ = compute_hash f₂ l₂) :
    f₁ = f₂ ∧ ∀ k, (lookupVal k l₁).map normVal = (lookupVal k l₂).map normVal := by
  have hf : f₁ = f₂ := congrArg Prod.fst he
  have hv : normVal (HVal.dict l₁) = normVal (HVal.dict l₂) := congrArg Prod.snd he
  rw [normVal, normVal, HVal.dict.injEq] at hv
  refine ⟨hf, fun k => ?_⟩
  have hnm₁ : ((normKVs l₁).map Prod.fst).Nodup := by
    rw [normKVs_keys]
    exact hnd₁
  have hnm₂ : ((normKVs l₂).map Prod.fst).Nodup := by
    rw [normKVs_keys]
    exact hnd₂
  have e₁ : lookupVal k (normKVs l₁) = lookupVal k (sortByKey (normKVs l₁)) :=
    lookupVal_perm (sortByKey_perm (normKVs l₁)).symm hnm₁ k
  have e₂ : lookupVal k (normKVs l₂) = lookupVal k (sortByKey (normKVs l₂)) :=
    lookupVal_perm (sortByKey_perm (normKVs l₂)).symm hnm₂ k
  rw [← lookupVal_normKVs, ← lookupVal_normKVs, e₁, e₂, hv]

/-! ### Claim C8 -/

/-- C8: two invocations of `compute_hash` with the same function identity
and named arguments that are equal as a mapping (any permutation of
entries, with distinct names) produce the same hash; conversely equal
hashes force the same function identity and, name by name, the same
normalized argument value — so any differing input value or differing
function identity produces a different hash. -/
theorem C8_compute_hash_contract :
    (∀ (f : FuncIdentity) (l₁ l₂ : List (String × HVal)),
        l₁.Perm l₂ → (l₁.map Prod.fst).Nodup → compute_hash f l₁ = compute_hash f l₂)
      ∧ (∀ (f₁ f₂ : FuncIdentity) (l₁ l₂ : List (String × HVal)),
          (l₁.map Prod.fst).Nodup → (l₂.map Prod.fst).Nodup →
          compute_hash f₁ l₁ = compute_hash f₂ l₂ →
          f₁ = f₂ ∧ ∀ k, (lookupVal k l₁).map normVal = (lookupVal k l₂).map normVal) :=
  ⟨compute_hash_perm_invariant, compute_hash_injective⟩

def fEx : FuncIdentity := ⟨"tests.function_return_input", "v1"⟩

/-- C8 (witness): `compute_hash(f, {a: 1, b: 2})` equals
`compute_hash(f, {b: 2, a: 1})` and differs from
`compute_hash(f, {a: 1, b: 3})`. -/
theorem C8_compute_hash_contract_witness :
    [("a", HVal.int 1), ("b", HVal.int 2)].Perm [("b", HVal.int 2), ("a", HVal.int 1)]
      ∧ ([("a", HVal.int 1), ("b", HVal.int 2)].map Prod.fst).Nodup
      ∧ compute_hash fEx [("a", HVal.int 1), ("b", HVal.int 2)]
          = compute_hash fEx [("b", HVal.int 2), ("a", HVal.int 1)]
      ∧ compute_hash fEx [("a", HVal.int 1), ("b", HVal.int 2)]
          ≠ compute_hash fEx [("a", HVal.int 1), ("b", HVal.int 3)] := by
  refine ⟨List.Perm.swap _ _ _, by simp, ?_, ?_⟩
  · exact C8_compute_hash_contract.1 fEx _ _ (List.Perm.swap _ _ _) (by simp)
  · intro he
    have h := C8_compute_hash_contract.2 fEx fEx _ _ (by simp) (by simp) he
    have hb := h.2 "b"
    have h1 : lookupVal "b" [("a", HVal.int 1), ("b", HVal.int 2)] = some (HVal.int 2) := by
      simp [lookupVal]
    have h2 : lookupVal "b" [("a", HVal.int 1), ("b", HVal.int 3)] = some (HVal.int 3) := by
      simp [lookupVal]
    rw [h1, h2] at hb
    simp [normVal] at hb
